import Mathlib

/-
Verification of the host-orchestrated OpenCL radix sort
(`src/opencl_sort.cpp`, function `run_opencl_radix`).

The host-side code (constants, per-pass bucket totals `bt`, global prefix
`pg`, per-group offsets `go`, transfer accounting, double buffering,
verification) is embedded from the source.  The two device kernels
(`build_group_histogram` and `scatter_stable`) live in
`kernels/radix_kernels.cl`, which is not part of the sources here; they are
modelled from the spec's kernel contracts (spec sections 4.2 and 4.3).
-/

namespace CloudSort

/-- Constant `BITS = 8` from `run_opencl_radix`. -/
def BITS : Nat := 8

/-- Constant `RADIX = 1 << BITS` from `run_opencl_radix`. -/
def RADIX : Nat := 2 ^ BITS

/-- Constant `LOCAL_SZ = 256` (the group size) from `run_opencl_radix`. -/
def LOCAL_SZ : Nat := 256

/-- Constant `PASSES = (64 + BITS - 1) / BITS` from `run_opencl_radix`. -/
def PASSES : Nat := (64 + BITS - 1) / BITS

/-- Constant `NUM_GROUPS = (N + LOCAL_SZ - 1) / LOCAL_SZ` from `run_opencl_radix`. -/
def NUM_GROUPS (N : Nat) : Nat := (N + LOCAL_SZ - 1) / LOCAL_SZ

/-- Modulus of the 32-bit unsigned host arrays `gh`, `bt`, `pg`, `go`. -/
def U32 : Nat := 2 ^ 32

/-- Modulus of the 64-bit unsigned transfer counters. -/
def U64 : Nat := 2 ^ 64

/-- Modelled from the spec: the digit window of a key for a given shift,
`(key >> shift) & (RADIX - 1)` — a fixed-width `BITS` slice of the key's bit
pattern starting at bit `shift` (spec section 3, "Digit window"); the digit
extraction itself happens inside the missing `kernels/radix_kernels.cl`. -/
def digit (shift k : Nat) : Nat := (k >>> shift) % RADIX

/-- The group of an index: groups are contiguous partitions of `[0, N)` of
`LOCAL_SZ` elements each (spec section 3, "Group"). -/
def groupOf (i : Nat) : Nat := i / LOCAL_SZ

/-- Modelled from the spec: the `build_group_histogram` kernel of the missing
`kernels/radix_kernels.cl`.  Per spec section 4.2 it produces the
(group, digit) count mapping: `gh g d` counts the keys of group `g` whose
current digit equals `d`. -/
def gh (src : List Nat) (shift g d : Nat) : Nat :=
  (List.range src.length).countP
    (fun i => groupOf i == g && digit shift (src.getD i 0) == d)

/-- Host bucket totals: `bt[d] = sum over groups g of gh[g*RADIX + d]`,
accumulated in a `uint32_t` (source lines 125-130). -/
def bt (src : List Nat) (shift d : Nat) : Nat :=
  ((List.range (NUM_GROUPS src.length)).map (fun g => gh src shift g d)).sum % U32

/-- Host global prefix: `pg[0] = 0; pg[d] = pg[d-1] + bt[d-1]` in `uint32_t`
arithmetic (source lines 131-132). -/
def pg (src : List Nat) (shift : Nat) : Nat → Nat
  | 0 => 0
  | d + 1 => (pg src shift d + bt src shift d) % U32

/-- Host per-group offsets: for each digit `d`, walk groups in increasing
order with a `uint32_t` running sum, assigning `go[g*RADIX + d]` the sum of
the counts of the groups before `g` (source lines 134-141). -/
def go (src : List Nat) (shift g d : Nat) : Nat :=
  ((List.range g).map (fun g2 => gh src shift g2 d)).sum % U32

/-- Modelled from the spec: the rank used by the `scatter_stable` kernel of
the missing `kernels/radix_kernels.cl` — the key's 0-based position among
same-group, same-digit keys scanned in increasing original-index order
(spec section 4.3). -/
def rank (src : List Nat) (shift i : Nat) : Nat :=
  (List.range i).countP
    (fun j => groupOf j == groupOf i &&
      digit shift (src.getD j 0) == digit shift (src.getD i 0))

/-- Modelled from the spec: the destination index of the key at original
index `i` per the `scatter_stable` contract (spec section 4.3):
`pg[digit(key)] + go[group(key), digit(key)] + rank`. -/
def destIndex (src : List Nat) (shift i : Nat) : Nat :=
  pg src shift (digit shift (src.getD i 0)) +
    go src shift (groupOf i) (digit shift (src.getD i 0)) +
    rank src shift i

/-- Modelled from the spec: the destination buffer produced by one
`scatter_stable` pass of the missing `kernels/radix_kernels.cl` — the stable
partition of the source by the current digit, digit buckets in ascending
order and each bucket in original-index order (spec section 4.3). -/
def passOutput (src : List Nat) (shift : Nat) : List Nat :=
  (List.range RADIX).flatMap (fun d => src.filter (fun k => digit shift k == d))

/-- The first `p` iterations of the pass loop of `run_opencl_radix`
(source lines 105-161): pass `p` uses `shift = p * BITS`. -/
def runUpTo (src : List Nat) : Nat → List Nat
  | 0 => src
  | p + 1 => passOutput (runUpTo src p) (p * BITS)

/-- Contents of the buffer handed back to the host after all `PASSES`
passes of `run_opencl_radix`. -/
def finalOutput (src : List Nat) : List Nat := runUpTo src PASSES

/-- The CPU baseline `cpu` of `run_opencl_radix` (source lines 47-48):
an independently computed reference comparison sort of the input. -/
def cpuReference (src : List Nat) : List Nat := List.insertionSort (· ≤ ·) src

/-- Direction of a host/device transfer. -/
inductive Dir where
  | h2d : Dir
  | d2h : Dir

/-- One transfer operation: a direction and a byte size. -/
structure Xfer where
  dir : Dir
  bytes : Nat

/-- The two global `uint64_t` transfer counters (source lines 11-12). -/
structure Counters where
  h2d : Nat
  d2h : Nat

/-- Effect of one transfer on the counters: `ENQUEUE_WRITE` adds its size to
`total_host_to_device`, `ENQUEUE_READ` to `total_device_to_host`
(source lines 15-27), in `uint64_t` arithmetic. -/
def applyXfer (c : Counters) (t : Xfer) : Counters :=
  match t.dir with
  | .h2d => ⟨(c.h2d + t.bytes) % U64, c.d2h⟩
  | .d2h => ⟨c.h2d, (c.d2h + t.bytes) % U64⟩

/-- Byte size of the per-group histogram buffer:
`NUM_GROUPS * RADIX * sizeof(cl_uint)`. -/
def ghBytes (N : Nat) : Nat := NUM_GROUPS N * RADIX * 4

/-- Byte size of the `pg` buffer: `RADIX * sizeof(cl_uint)`. -/
def pgBytes : Nat := RADIX * 4

/-- The counted transfers of one pass of `run_opencl_radix`, in program
order: zero the histogram (write), read back `gh`, upload `pg`, upload `go`
(source lines 109-110, 121-122, 144-147). -/
def passXfers (N : Nat) : List Xfer :=
  [⟨.h2d, ghBytes N⟩, ⟨.d2h, ghBytes N⟩, ⟨.h2d, pgBytes⟩, ⟨.h2d, ghBytes N⟩]

/-- All transfers counted by the `ENQUEUE_WRITE` / `ENQUEUE_READ` wrappers
during a run: `PASSES` repetitions of the per-pass transfers followed by the
final readback of `N * sizeof(cl_ulong)` bytes (source lines 164-165). -/
def runXfers (N : Nat) : List Xfer :=
  (List.range PASSES).flatMap (fun _ => passXfers N) ++ [⟨.d2h, 8 * N⟩]

/-- All host/device data movements actually performed during a run: the
initial input upload of `N * sizeof(cl_ulong)` bytes done by `clCreateBuffer`
with `CL_MEM_COPY_HOST_PTR` (source lines 82-83), followed by the counted
transfers. -/
def allMovements (N : Nat) : List Xfer := ⟨.h2d, 8 * N⟩ :: runXfers N

/-- Sum of the sizes of the host-to-device transfers of a list. -/
def h2dSum : List Xfer → Nat
  | [] => 0
  | t :: ts => (match t.dir with | .h2d => t.bytes | .d2h => 0) + h2dSum ts

/-- Sum of the sizes of the device-to-host transfers of a list. -/
def d2hSum : List Xfer → Nat
  | [] => 0
  | t :: ts => (match t.dir with | .h2d => 0 | .d2h => t.bytes) + d2hSum ts

/-- The counters at the end of a run that started from zero. -/
def finalCounters (N : Nat) : Counters := (runXfers N).foldl applyXfer ⟨0, 0⟩

/-- Outcome of the final verification (source lines 167-175): either the
mismatch diagnostic together with `exit(1)`, or the pass signal together
with the two transfer totals. -/
inductive RunReport where
  | mismatchExit1 : RunReport
  | passReport : Nat → Nat → RunReport
deriving DecidableEq

/-- The verify-and-report step of `run_opencl_radix` (source lines 167-175):
`if (out != cpu) { "Mismatch!"; exit(1); }` else print `PASS` and the two
transfer totals. -/
def verifyReport (out cpu : List Nat) (c : Counters) : RunReport :=
  if out ≠ cpu then .mismatchExit1 else .passReport c.h2d c.d2h

/-- Identity of the buffer playing the source role at the start of pass `p`:
`false` is the buffer created as `buf_in`, `true` the one created as
`buf_out`; `std::swap(buf_in, buf_out)` toggles it each pass
(source line 160). -/
def srcId : Nat → Bool
  | 0 => false
  | p + 1 => !srcId p

/-- Identity of the buffer playing the destination role during pass `p`. -/
def dstId (p : Nat) : Bool := !srcId p

/-- Contents of the two device key buffers at the start of pass `p`:
initially the `false` buffer holds the input (uploaded at creation) and the
`true` buffer is uninitialized (modelled as zeros); each pass scatters the
source contents into the destination buffer and leaves the source untouched. -/
def bufContents (src : List Nat) : Nat → Bool → List Nat
  | 0, false => src
  | 0, true => List.replicate src.length 0
  | p + 1, b =>
      if b = dstId p then passOutput (bufContents src p (srcId p)) (p * BITS)
      else bufContents src p b

/-- Caller-visible state around a call to `run_opencl_radix`: the input
vector `in`, the output vector `out`, and the two global transfer counters. -/
structure RunState where
  inp : List Nat
  out : List Nat
  h2d : Nat
  d2h : Nat

/-- The effect of `run_opencl_radix(in, out, N)` with `N = in.size()` on the
caller-visible state: `in` is only read (const reference, uploaded once at
buffer creation), `out` is resized to `N` and overwritten by the final
readback, and the two counters accumulate the counted transfers. -/
def run_opencl_radix (s : RunState) : RunState :=
  let c := (runXfers s.inp.length).foldl applyXfer ⟨s.h2d, s.d2h⟩
  { inp := s.inp, out := finalOutput s.inp, h2d := c.h2d, d2h := c.d2h }

/-- The element count as received by the two kernels: `clSetKernelArg` passes
`sizeof(uint32_t)` bytes of the `size_t` variable `N` (source lines 115 and
154), i.e. the kernels see `N mod 2^32`. -/
def kernelArgN (N : Nat) : Nat := N % U32

/-- Number of keys of `src` whose digit equals `d` for the given shift. -/
def digitCount (src : List Nat) (shift d : Nat) : Nat :=
  src.countP (fun k => digit shift k == d)

/-- Number of keys of `src` whose digit is strictly below `d`. -/
def cntLt (src : List Nat) (shift d : Nat) : Nat :=
  src.countP (fun k => decide (digit shift k < d))

/-- Rank of index `i` among all earlier same-digit keys of the whole list. -/
def rankGlobal (src : List Nat) (shift i : Nat) : Nat :=
  (src.take i).countP (fun k => digit shift k == digit shift (src.getD i 0))

/-- The first `n` digit buckets of a pass output, in ascending digit order;
`passOutput src shift = prefixBlocks src shift RADIX`. -/
def prefixBlocks (src : List Nat) (shift n : Nat) : List Nat :=
  (List.range n).flatMap (fun d => src.filter (fun k => digit shift k == d))

/-! Counting toolkit. -/

theorem digit_lt_radix (shift k : Nat) : digit shift k < RADIX :=
  Nat.mod_lt _ (by norm_num [RADIX, BITS])

theorem mod_shift_decomp (s k : Nat) :
    k % 2 ^ (s + 8) = k % 2 ^ s + 2 ^ s * digit s k := by
  have h : digit s k = k / 2 ^ s % 2 ^ 8 := by
    simp [digit, Nat.shiftRight_eq_div_pow, RADIX, BITS]
  rw [h, pow_add, Nat.mod_mul]

theorem countP_and_split {α : Type} (l : List α) (f : α → Nat) (q : α → Bool) (n : Nat) :
    l.countP (fun a => decide (f a < n + 1) && q a)
      = l.countP (fun a => decide (f a < n) && q a)
        + l.countP (fun a => (f a == n) && q a) := by
  induction l with
  | nil => simp
  | cons a t ih =>
    simp only [List.countP_cons, ih]
    cases hq : q a with
    | false => simp [hq]
    | true =>
      rcases Nat.lt_trichotomy (f a) n with h | h | h
      · have h1 : f a < n + 1 := by omega
        have h2 : ¬(f a = n) := by omega
        simp [hq, h, h1, h2]
        omega
      · have h1 : f a < n + 1 := by omega
        have h2 : ¬(f a < n) := by omega
        simp [hq, h, h1, h2]
        omega
      · have h1 : ¬(f a < n + 1) := by omega
        have h2 : ¬(f a < n) := by omega
        have h3 : ¬(f a = n) := by omega
        simp [hq, h1, h2, h3]

theorem sum_countP_range {α : Type} (l : List α) (f : α → Nat) (q : α → Bool) :
    ∀ n, ((List.range n).map (fun d => l.countP (fun a => (f a == d) && q a))).sum
      = l.countP (fun a => decide (f a < n) && q a)
  | 0 => by simp
  | n + 1 => by
    rw [List.range_succ, List.map_append, List.sum_append,
        sum_countP_range l f q n, countP_and_split]
    simp

theorem countP_range_getD (p : Nat → Bool) :
    ∀ (l : List Nat), (List.range l.length).countP (fun i => p (l.getD i 0)) = l.countP p
  | [] => by simp
  | a :: t => by
    rw [List.length_cons, List.range_succ_eq_map, List.countP_cons, List.countP_map]
    have he : ((fun i => p ((a :: t).getD i 0)) ∘ Nat.succ) = fun i => p (t.getD i 0) := by
      funext i
      simp [Function.comp, List.getD_cons_succ]
    rw [he, countP_range_getD p t, List.countP_cons]
    simp [List.getD_cons_zero]

theorem countP_range_take (p : Nat → Bool) (l : List Nat) (i : Nat) (hi : i ≤ l.length) :
    (List.range i).countP (fun j => p (l.getD j 0)) = (l.take i).countP p := by
  have h := countP_range_getD p (l.take i)
  rw [List.length_take, Nat.min_eq_left hi] at h
  rw [← h]
  apply List.countP_congr
  intro j hj
  rw [List.mem_range] at hj
  rw [List.getD_eq_getElem?_getD, List.getD_eq_getElem?_getD, List.getElem?_take, if_pos hj]

theorem countP_or_disjoint {α : Type} (l : List α) (p q : α → Bool)
    (h : ∀ a ∈ l, ¬(p a = true ∧ q a = true)) :
    l.countP (fun a => p a || q a) = l.countP p + l.countP q := by
  induction l with
  | nil => simp
  | cons a t ih =>
    have ht : ∀ a ∈ t, ¬(p a = true ∧ q a = true) := fun x hx => h x (List.mem_cons_of_mem a hx)
    have ha := h a (List.mem_cons_self a t)
    simp only [List.countP_cons, ih ht]
    cases hp : p a <;> cases hq : q a <;> simp [hp, hq] at ha ⊢ <;> omega

theorem filter_append_filter_perm {α : Type} (l : List α) (p q : α → Bool)
    (h : ∀ a, ¬(p a = true ∧ q a = true)) :
    (l.filter p ++ l.filter q).Perm (l.filter (fun a => p a || q a)) := by
  induction l with
  | nil => simp
  | cons a t ih =>
    by_cases hp : p a
    · have hq : q a = false := by
        cases hqa : q a
        · rfl
        · exact absurd ⟨hp, hqa⟩ (h a)
      simp only [List.filter_cons, hp, hq, if_pos, Bool.true_or, if_true, if_false,
        Bool.false_eq_true, List.cons_append]
      exact ih.cons a
    · by_cases hq : q a
      · have hp' : p a = false := by
          cases hpa : p a
          · rfl
          · exact absurd hpa hp
        simp only [List.filter_cons, hp', hq, Bool.false_or, if_true, if_false,
          Bool.false_eq_true]
        exact List.perm_middle.trans (ih.cons a)
      · have hp' : p a = false := by
          cases hpa : p a
          · rfl
          · exact absurd hpa hp
        have hq' : q a = false := by
          cases hqa : q a
          · rfl
          · exact absurd hqa hq
        simp only [List.filter_cons, hp', hq', Bool.false_or, if_false, Bool.false_eq_true]
        exact ih

theorem filter_getElem? (p : Nat → Bool) :
    ∀ (l : List Nat) (i : Nat), i < l.length → p (l.getD i 0) = true →
      (l.filter p)[(l.take i).countP p]? = l[i]?
  | [], i, hi, _ => absurd hi (by simp)
  | a :: t, 0, _, hp => by
    rw [List.getD_cons_zero] at hp
    simp [List.filter_cons, hp]
  | a :: t, i + 1, hi, hp => by
    have hi' : i < t.length := by simpa using hi
    have hp' : p (t.getD i 0) = true := by simpa [List.getD_cons_succ] using hp
    have ih := filter_getElem? p t i hi' hp'
    rw [List.take_succ_cons, List.countP_cons, List.filter_cons, List.getElem?_cons_succ]
    by_cases hpa : p a
    · simp only [hpa, if_true, Nat.add_one]
      rw [List.getElem?_cons_succ]
      exact ih
    · have hpa' : p a = false := by
        cases h' : p a
        · rfl
        · exact absurd h' hpa
      simp only [hpa', if_false, Nat.add_zero, Bool.false_eq_true]
      exact ih

theorem take_countP_lt (p : Nat → Bool) (l : List Nat) (i : Nat)
    (hi : i < l.length) (hp : p (l.getD i 0) = true) :
    (l.take i).countP p < l.countP p := by
  conv_rhs => rw [← List.take_append_drop i l]
  rw [List.countP_append]
  have hd : l.drop i = l.getD i 0 :: l.drop (i + 1) := by
    rw [List.getD_eq_getElem l 0 hi, List.getElem_cons_drop l i hi]
  rw [hd, List.countP_cons, hp]
  simp

theorem take_countP_mono (p : Nat → Bool) (l : List Nat) {i j : Nat} (hij : i ≤ j) :
    (l.take i).countP p ≤ (l.take j).countP p := by
  conv_rhs => rw [← List.take_append_drop i (l.take j)]
  rw [List.countP_append, List.take_take, Nat.min_eq_left hij]
  omega

theorem take_succ_countP (p : Nat → Bool) (l : List Nat) (i : Nat) (hi : i < l.length) :
    (l.take (i + 1)).countP p
      = (l.take i).countP p + (if p (l.getD i 0) then 1 else 0) := by
  rw [List.take_succ, List.countP_append]
  have h : l[i]? = some (l.getD i 0) := by
    rw [List.getD_eq_getElem l 0 hi]
    exact List.getElem?_eq_getElem hi
  rw [h]
  simp [List.countP_cons]

/-! Structure of one scatter pass. -/

theorem passOutput_eq_prefixBlocks (src : List Nat) (shift : Nat) :
    passOutput src shift = prefixBlocks src shift RADIX := rfl

theorem prefixBlocks_succ (l : List Nat) (s n : Nat) :
    prefixBlocks l s (n + 1)
      = prefixBlocks l s n ++ l.filter (fun k => digit s k == n) := by
  rw [prefixBlocks, List.range_succ, List.flatMap_append]
  simp [prefixBlocks]

theorem mem_prefixBlocks_digit_lt {l : List Nat} {s n k : Nat}
    (h : k ∈ prefixBlocks l s n) : digit s k < n := by
  rw [prefixBlocks, List.mem_flatMap] at h
  obtain ⟨d, hd, hk⟩ := h
  rw [List.mem_range] at hd
  rw [List.mem_filter] at hk
  have h2 := hk.2
  rw [beq_iff_eq] at h2
  omega

theorem cntLt_zero (l : List Nat) (s : Nat) : cntLt l s 0 = 0 := by
  simp [cntLt]

theorem cntLt_succ (l : List Nat) (s n : Nat) :
    cntLt l s (n + 1) = cntLt l s n + digitCount l s n := by
  have h := countP_and_split l (digit s) (fun _ => true) n
  simp only [Bool.and_true] at h
  rw [cntLt, cntLt, digitCount]
  exact h

theorem length_prefixBlocks (l : List Nat) (s n : Nat) :
    (prefixBlocks l s n).length = cntLt l s n := by
  induction n with
  | zero => simp [prefixBlocks, cntLt_zero]
  | succ n ih =>
    rw [prefixBlocks_succ, List.length_append, ih, ← List.countP_eq_length_filter,
      cntLt_succ, digitCount]

theorem cntLt_mono (l : List Nat) (s : Nat) {m n : Nat} (h : m ≤ n) :
    cntLt l s m ≤ cntLt l s n := by
  apply List.countP_mono_left
  intro x _ hx
  rw [decide_eq_true_eq] at hx
  rw [decide_eq_true_eq]
  omega

theorem prefixBlocks_getElem? (l : List Nat) (s : Nat) :
    ∀ (n : Nat), ∀ (i : Nat), i < l.length → digit s (l.getD i 0) < n →
      (prefixBlocks l s n)[cntLt l s (digit s (l.getD i 0)) + rankGlobal l s i]? = l[i]?
  | 0, i, _, hd => absurd hd (by omega)
  | n + 1, i, hi, hd => by
    have hself : (digit s (l.getD i 0) == digit s (l.getD i 0)) = true := by simp
    rcases Nat.lt_or_ge (digit s (l.getD i 0)) n with hlt | hge
    · have hrk : rankGlobal l s i < digitCount l s (digit s (l.getD i 0)) :=
        take_countP_lt _ l i hi hself
      have hcnt : cntLt l s (digit s (l.getD i 0)) + digitCount l s (digit s (l.getD i 0))
          = cntLt l s (digit s (l.getD i 0) + 1) := (cntLt_succ l s _).symm
      have hmono : cntLt l s (digit s (l.getD i 0) + 1) ≤ cntLt l s n :=
        cntLt_mono l s hlt
      have hidx : cntLt l s (digit s (l.getD i 0)) + rankGlobal l s i
          < (prefixBlocks l s n).length := by
        rw [length_prefixBlocks]
        omega
      rw [prefixBlocks_succ, List.getElem?_append_left hidx]
      exact prefixBlocks_getElem? l s n i hi hlt
    · have hdn : digit s (l.getD i 0) = n := by omega
      have hidx : (prefixBlocks l s n).length
          ≤ cntLt l s (digit s (l.getD i 0)) + rankGlobal l s i := by
        rw [length_prefixBlocks, hdn]
        omega
      rw [prefixBlocks_succ, List.getElem?_append_right hidx, length_prefixBlocks, hdn]
      have hsub : cntLt l s n + rankGlobal l s i - cntLt l s n = rankGlobal l s i := by
        omega
      rw [hsub, rankGlobal, hdn]
      exact filter_getElem? (fun k => digit s k == n) l i hi (by rw [← hdn]; exact hself)

theorem passOutput_getElem? (l : List Nat) (s i : Nat) (hi : i < l.length) :
    (passOutput l s)[cntLt l s (digit s (l.getD i 0)) + rankGlobal l s i]? = l[i]? := by
  rw [passOutput_eq_prefixBlocks]
  exact prefixBlocks_getElem? l s RADIX i hi (digit_lt_radix s _)

theorem prefixBlocks_perm (l : List Nat) (s : Nat) :
    ∀ n, (prefixBlocks l s n).Perm (l.filter (fun k => decide (digit s k < n)))
  | 0 => by
    simp [prefixBlocks]
  | n + 1 => by
    rw [prefixBlocks_succ]
    refine ((prefixBlocks_perm l s n).append_right _).trans ?_
    refine (filter_append_filter_perm l _ _ ?_).trans ?_
    · intro a ha
      rw [decide_eq_true_eq] at ha
      have h2 := ha.2
      rw [beq_iff_eq] at h2
      omega
    · have hcg : ∀ a ∈ l,
          (decide (digit s a < n) || (digit s a == n)) = decide (digit s a < n + 1) := by
        intro a _
        rcases Nat.lt_trichotomy (digit s a) n with h | h | h
        · simp [h, Nat.lt_succ_of_lt h]
        · simp [h]
        · have h1 : ¬(digit s a < n) := by omega
          have h2 : ¬(digit s a = n) := by omega
          have h3 : ¬(digit s a < n + 1) := by omega
          simp [h1, h2, h3]
      rw [List.filter_congr hcg]

theorem passOutput_perm (l : List Nat) (s : Nat) : (passOutput l s).Perm l := by
  rw [passOutput_eq_prefixBlocks]
  have he : l.filter (fun k => decide (digit s k < RADIX)) = l :=
    List.filter_eq_self.mpr (fun a _ => by simp [digit_lt_radix])
  have h := prefixBlocks_perm l s RADIX
  rwa [he] at h

theorem prefixBlocks_sorted (l : List Nat) (s : Nat)
    (hl : List.Sorted (fun a b => a % 2 ^ s ≤ b % 2 ^ s) l) :
    ∀ n, List.Sorted (fun a b => a % 2 ^ (s + 8) ≤ b % 2 ^ (s + 8)) (prefixBlocks l s n)
  | 0 => by simp [prefixBlocks]
  | n + 1 => by
    rw [prefixBlocks_succ]
    refine List.pairwise_append.mpr ⟨prefixBlocks_sorted l s hl n, ?_, ?_⟩
    · have hf := hl.filter (fun k => digit s k == n)
      refine List.Pairwise.imp_of_mem ?_ hf
      intro a b ha hb hab
      rw [List.mem_filter] at ha hb
      have hda : digit s a = n := by
        have := ha.2
        rwa [beq_iff_eq] at this
      have hdb : digit s b = n := by
        have := hb.2
        rwa [beq_iff_eq] at this
      rw [mod_shift_decomp, mod_shift_decomp, hda, hdb]
      omega
    · intro a ha b hb
      have hda : digit s a < n := mem_prefixBlocks_digit_lt ha
      have hdb : digit s b = n := by
        rw [List.mem_filter] at hb
        have := hb.2
        rwa [beq_iff_eq] at this
      rw [mod_shift_decomp, mod_shift_decomp, hdb]
      have h2 : a % 2 ^ s < 2 ^ s := Nat.mod_lt _ (by positivity)
      have h3 : 2 ^ s * digit s a + 2 ^ s ≤ 2 ^ s * n := by
        have h4 : 2 ^ s * digit s a + 2 ^ s = 2 ^ s * (digit s a + 1) := by ring
        rw [h4]
        exact Nat.mul_le_mul_left _ hda
      omega

theorem passOutput_sorted (l : List Nat) (s : Nat)
    (hl : List.Sorted (fun a b => a % 2 ^ s ≤ b % 2 ^ s) l) :
    List.Sorted (fun a b => a % 2 ^ (s + 8) ≤ b % 2 ^ (s + 8)) (passOutput l s) := by
  rw [passOutput_eq_prefixBlocks]
  exact prefixBlocks_sorted l s hl RADIX

/-! The pass loop. -/

theorem runUpTo_perm (src : List Nat) : ∀ p, (runUpTo src p).Perm src
  | 0 => List.Perm.refl src
  | p + 1 => (passOutput_perm _ _).trans (runUpTo_perm src p)

theorem runUpTo_sorted (src : List Nat) :
    ∀ p, List.Sorted (fun a b => a % 2 ^ (p * BITS) ≤ b % 2 ^ (p * BITS)) (runUpTo src p)
  | 0 => by
    apply List.pairwise_of_forall
    intro x y
    simp [Nat.mod_one]
  | p + 1 => by
    have h := passOutput_sorted (runUpTo src p) (p * BITS) (runUpTo_sorted src p)
    have he : (p + 1) * BITS = p * BITS + 8 := by
      simp [BITS]
      ring
    rw [he]
    exact h

theorem finalOutput_perm (src : List Nat) : (finalOutput src).Perm src :=
  runUpTo_perm src PASSES

theorem finalOutput_sorted (src : List Nat) (h : ∀ k ∈ src, k < 2 ^ 64) :
    List.Sorted (· ≤ ·) (finalOutput src) := by
  have hs := runUpTo_sorted src PASSES
  have hP : PASSES * BITS = 64 := by norm_num [PASSES, BITS]
  rw [hP] at hs
  refine List.Pairwise.imp_of_mem ?_ hs
  intro a b ha hb hab
  have ha' : a < 2 ^ 64 := h a ((finalOutput_perm src).subset ha)
  have hb' : b < 2 ^ 64 := h b ((finalOutput_perm src).subset hb)
  rwa [Nat.mod_eq_of_lt ha', Nat.mod_eq_of_lt hb'] at hab

theorem finalOutput_eq_reference (src : List Nat) (h : ∀ k ∈ src, k < 2 ^ 64) :
    finalOutput src = cpuReference src := by
  refine List.eq_of_perm_of_sorted ?_ (finalOutput_sorted src h)
    (List.sorted_insertionSort _ src)
  exact (finalOutput_perm src).trans (List.perm_insertionSort _ src).symm

/-! Host offset computation. -/

theorem groupOf_lt_numGroups {i N : Nat} (h : i < N) : groupOf i < NUM_GROUPS N := by
  rw [groupOf, NUM_GROUPS, LOCAL_SZ]
  have h1 : (i + 256) / 256 ≤ (N + 255) / 256 := Nat.div_le_div_right (by omega)
  rw [Nat.add_div_right i (by norm_num)] at h1
  omega

theorem groupOf_mono {i j : Nat} (h : i ≤ j) : groupOf i ≤ groupOf j :=
  Nat.div_le_div_right h

theorem sum_gh_eq_digitCount (src : List Nat) (shift d : Nat) :
    ((List.range (NUM_GROUPS src.length)).map (fun g => gh src shift g d)).sum
      = digitCount src shift d := by
  simp only [gh]
  rw [sum_countP_range (List.range src.length) groupOf
      (fun i => digit shift (src.getD i 0) == d) (NUM_GROUPS src.length)]
  have hc : ∀ i ∈ List.range src.length,
      ((decide (groupOf i < NUM_GROUPS src.length)
          && (digit shift (src.getD i 0) == d)) = true)
        ↔ ((digit shift (src.getD i 0) == d) = true) := by
    intro i hi
    rw [List.mem_range] at hi
    simp [groupOf_lt_numGroups hi]
  rw [List.countP_congr hc, countP_range_getD (fun k => digit shift k == d) src]
  rfl

theorem bt_exact (src : List Nat) (shift d : Nat) (h : src.length < U32) :
    bt src shift d = digitCount src shift d := by
  rw [bt, sum_gh_eq_digitCount]
  exact Nat.mod_eq_of_lt (lt_of_le_of_lt (List.countP_le_length _) h)

theorem pg_exact (src : List Nat) (shift : Nat) (h : src.length < U32) :
    ∀ d, pg src shift d = cntLt src shift d
  | 0 => by rw [pg, cntLt_zero]
  | d + 1 => by
    rw [pg, pg_exact src shift h d, bt_exact src shift d h, ← cntLt_succ]
    exact Nat.mod_eq_of_lt (lt_of_le_of_lt (List.countP_le_length _) h)

theorem sum_gh_lt_eq (src : List Nat) (shift g d : Nat) :
    ((List.range g).map (fun g2 => gh src shift g2 d)).sum
      = (List.range src.length).countP
          (fun i => decide (groupOf i < g) && (digit shift (src.getD i 0) == d)) := by
  simp only [gh]
  exact sum_countP_range (List.range src.length) groupOf
      (fun i => digit shift (src.getD i 0) == d) g

theorem go_exact (src : List Nat) (shift g d : Nat) (h : src.length < U32) :
    go src shift g d = (List.range src.length).countP
      (fun i => decide (groupOf i < g) && (digit shift (src.getD i 0) == d)) := by
  rw [go, sum_gh_lt_eq]
  refine Nat.mod_eq_of_lt (lt_of_le_of_lt (le_trans (List.countP_le_length _) ?_) h)
  rw [List.length_range]

theorem go_add_rank (src : List Nat) (shift i : Nat) (hi : i < src.length)
    (hN : src.length < U32) :
    go src shift (groupOf i) (digit shift (src.getD i 0)) + rank src shift i
      = rankGlobal src shift i := by
  rw [go_exact src shift _ _ hN, rank, rankGlobal,
    ← countP_range_take (fun k => digit shift k == digit shift (src.getD i 0)) src i
      (le_of_lt hi)]
  have hsplit : ∀ j ∈ List.range i,
      ((digit shift (src.getD j 0) == digit shift (src.getD i 0)) = true)
        ↔ (((decide (groupOf j < groupOf i)
              && (digit shift (src.getD j 0) == digit shift (src.getD i 0)))
            || ((groupOf j == groupOf i)
              && (digit shift (src.getD j 0) == digit shift (src.getD i 0)))) = true) := by
    intro j hj
    rw [List.mem_range] at hj
    have hle : groupOf j ≤ groupOf i := groupOf_mono (le_of_lt hj)
    rcases Nat.lt_or_ge (groupOf j) (groupOf i) with hlt | hge
    · simp [hlt]
    · have heq : groupOf j = groupOf i := by omega
      simp [heq]
  rw [List.countP_congr hsplit, countP_or_disjoint]
  · have hrange : List.range src.length
        = List.range i ++ (List.range (src.length - i)).map (fun x => i + x) := by
      rw [← List.range_add]
      congr 1
      omega
    have hzero : ((List.range (src.length - i)).map (fun x => i + x)).countP
        (fun j => decide (groupOf j < groupOf i)
          && (digit shift (src.getD j 0) == digit shift (src.getD i 0))) = 0 := by
      rw [List.countP_map, List.countP_eq_zero]
      intro a _
      simp only [Function.comp]
      have hge : groupOf i ≤ groupOf (i + a) := groupOf_mono (by omega)
      have hnot : ¬(groupOf (i + a) < groupOf i) := by omega
      simp [hnot]
    rw [hrange, List.countP_append, hzero]
    omega
  · intro a _
    intro hcon
    obtain ⟨h1, h2⟩ := hcon
    rw [Bool.and_eq_true, decide_eq_true_eq] at h1
    rw [Bool.and_eq_true, beq_iff_eq] at h2
    omega

theorem destIndex_exact (src : List Nat) (shift i : Nat) (hi : i < src.length)
    (hN : src.length < U32) :
    destIndex src shift i
      = cntLt src shift (digit shift (src.getD i 0)) + rankGlobal src shift i := by
  rw [destIndex, pg_exact src shift hN, Nat.add_assoc, go_add_rank src shift i hi hN]

theorem destIndex_lt_of_digit_eq (src : List Nat) (shift : Nat) {i j : Nat}
    (hij : i < j) (hj : j < src.length) (hN : src.length < U32)
    (hd : digit shift (src.getD i 0) = digit shift (src.getD j 0)) :
    destIndex src shift i < destIndex src shift j := by
  have hi : i < src.length := lt_trans hij hj
  rw [destIndex_exact src shift i hi hN, destIndex_exact src shift j hj hN,
    rankGlobal, rankGlobal, hd]
  have hstep : (src.take (i + 1)).countP
        (fun k => digit shift k == digit shift (src.getD j 0))
      = (src.take i).countP (fun k => digit shift k == digit shift (src.getD j 0)) + 1 := by
    rw [take_succ_countP _ src i hi]
    rw [hd]
    simp
  have hmono := take_countP_mono
    (fun k => digit shift k == digit shift (src.getD j 0)) src
    (show i + 1 ≤ j by omega)
  omega

/-! Transfer accounting. -/

theorem h2dSum_append (l1 l2 : List Xfer) :
    h2dSum (l1 ++ l2) = h2dSum l1 + h2dSum l2 := by
  induction l1 with
  | nil => rw [List.nil_append, h2dSum, Nat.zero_add]
  | cons t ts ih => rw [List.cons_append, h2dSum, h2dSum, ih, Nat.add_assoc]

theorem d2hSum_append (l1 l2 : List Xfer) :
    d2hSum (l1 ++ l2) = d2hSum l1 + d2hSum l2 := by
  induction l1 with
  | nil => rw [List.nil_append, d2hSum, Nat.zero_add]
  | cons t ts ih => rw [List.cons_append, d2hSum, d2hSum, ih, Nat.add_assoc]

theorem foldl_applyXfer (ts : List Xfer) :
    ∀ (c : Counters), c.h2d + h2dSum ts < U64 → c.d2h + d2hSum ts < U64 →
      ts.foldl applyXfer c = ⟨c.h2d + h2dSum ts, c.d2h + d2hSum ts⟩ := by
  induction ts with
  | nil =>
    intro c _ _
    rw [List.foldl_nil, h2dSum, d2hSum, Nat.add_zero, Nat.add_zero]
  | cons t ts ih =>
    intro c h1 h2
    rw [List.foldl_cons]
    cases t with
    | mk dir bytes =>
      cases dir with
      | h2d =>
        rw [h2dSum] at h1 ⊢
        rw [d2hSum] at h2 ⊢
        simp only at h1 h2 ⊢
        have hstep : applyXfer c ⟨Dir.h2d, bytes⟩ = ⟨c.h2d + bytes, c.d2h⟩ := by
          rw [applyXfer]
          simp only
          rw [Nat.mod_eq_of_lt (show c.h2d + bytes < U64 by omega)]
        rw [hstep]
        have hh : (⟨c.h2d + bytes, c.d2h⟩ : Counters).h2d + h2dSum ts < U64 := by
          show c.h2d + bytes + h2dSum ts < U64
          omega
        have hd : (⟨c.h2d + bytes, c.d2h⟩ : Counters).d2h + d2hSum ts < U64 := by
          show c.d2h + d2hSum ts < U64
          omega
        rw [ih _ hh hd]
        have e1 : (⟨c.h2d + bytes, c.d2h⟩ : Counters).h2d + h2dSum ts
            = c.h2d + (bytes + h2dSum ts) := by
          show c.h2d + bytes + h2dSum ts = c.h2d + (bytes + h2dSum ts)
          omega
        have e2 : (⟨c.h2d + bytes, c.d2h⟩ : Counters).d2h + d2hSum ts
            = c.d2h + (0 + d2hSum ts) := by
          show c.d2h + d2hSum ts = c.d2h + (0 + d2hSum ts)
          omega
        rw [e1, e2]
      | d2h =>
        rw [h2dSum] at h1 ⊢
        rw [d2hSum] at h2 ⊢
        simp only at h1 h2 ⊢
        have hstep : applyXfer c ⟨Dir.d2h, bytes⟩ = ⟨c.h2d, c.d2h + bytes⟩ := by
          rw [applyXfer]
          simp only
          rw [Nat.mod_eq_of_lt (show c.d2h + bytes < U64 by omega)]
        rw [hstep]
        have hh : (⟨c.h2d, c.d2h + bytes⟩ : Counters).h2d + h2dSum ts < U64 := by
          show c.h2d + h2dSum ts < U64
          omega
        have hd : (⟨c.h2d, c.d2h + bytes⟩ : Counters).d2h + d2hSum ts < U64 := by
          show c.d2h + bytes + d2hSum ts < U64
          omega
        rw [ih _ hh hd]
        have e1 : (⟨c.h2d, c.d2h + bytes⟩ : Counters).h2d + h2dSum ts
            = c.h2d + (0 + h2dSum ts) := by
          show c.h2d + h2dSum ts = c.h2d + (0 + h2dSum ts)
          omega
        have e2 : (⟨c.h2d, c.d2h + bytes⟩ : Counters).d2h + d2hSum ts
            = c.d2h + (bytes + d2hSum ts) := by
          show c.d2h + bytes + d2hSum ts = c.d2h + (bytes + d2hSum ts)
          omega
        rw [e1, e2]

theorem h2dSum_runXfers (N : Nat) :
    h2dSum (runXfers N) = 16 * ghBytes N + 8 * pgBytes := by
  have hr : List.range PASSES = [0, 1, 2, 3, 4, 5, 6, 7] := rfl
  rw [runXfers, hr]
  simp only [List.flatMap_cons, List.flatMap_nil, passXfers, List.append_nil]
  simp only [h2dSum_append, h2dSum]
  omega

theorem d2hSum_runXfers (N : Nat) :
    d2hSum (runXfers N) = 8 * ghBytes N + 8 * N := by
  have hr : List.range PASSES = [0, 1, 2, 3, 4, 5, 6, 7] := rfl
  rw [runXfers, hr]
  simp only [List.flatMap_cons, List.flatMap_nil, passXfers, List.append_nil]
  simp only [d2hSum_append, d2hSum]
  omega

theorem numGroups_le (N : Nat) (h : N < U32) : NUM_GROUPS N ≤ 16777216 := by
  have hu : U32 = 4294967296 := rfl
  rw [NUM_GROUPS, LOCAL_SZ]
  have h1 : (N + 255) / 256 ≤ (4294967295 + 255) / 256 :=
    Nat.div_le_div_right (by omega)
  norm_num at h1
  exact h1

theorem ghBytes_le (N : Nat) (h : N < U32) : ghBytes N ≤ 17179869184 := by
  have h1 := numGroups_le N h
  rw [ghBytes, RADIX, BITS]
  norm_num
  omega

theorem sums_runXfers_lt (N : Nat) (h : N < U32) :
    h2dSum (runXfers N) < U64 ∧ d2hSum (runXfers N) < U64 := by
  have h1 := ghBytes_le N h
  have hu : U32 = 4294967296 := rfl
  have hu64 : U64 = 18446744073709551616 := rfl
  have hp : pgBytes = 1024 := rfl
  rw [h2dSum_runXfers, d2hSum_runXfers]
  omega

theorem finalCounters_exact (N : Nat) (h : N < U32) :
    finalCounters N = ⟨h2dSum (runXfers N), d2hSum (runXfers N)⟩ := by
  obtain ⟨h1, h2⟩ := sums_runXfers_lt N h
  rw [finalCounters, foldl_applyXfer (runXfers N) ⟨0, 0⟩
    (by simpa using h1) (by simpa using h2)]
  simp

/-! Double buffering. -/

theorem passOutput_nil (s : Nat) : passOutput [] s = [] := by
  simp [passOutput]

theorem runUpTo_nil : ∀ p, runUpTo ([] : List Nat) p = []
  | 0 => rfl
  | p + 1 => by rw [runUpTo, runUpTo_nil p, passOutput_nil]

theorem finalOutput_nil : finalOutput ([] : List Nat) = [] := runUpTo_nil PASSES

theorem bufContents_srcId (src : List Nat) :
    ∀ p, bufContents src p (srcId p) = runUpTo src p
  | 0 => rfl
  | p + 1 => by
    have hb : srcId (p + 1) = dstId p := rfl
    rw [hb, bufContents, if_pos rfl, bufContents_srcId src p, runUpTo]

/-! Claims. -/

/-- Claim C1: for every valid input sequence of 64-bit unsigned integers, the
final output buffer produced by `run_opencl_radix` is a permutation of the
input, is sorted in non-decreasing order, and is element-wise equal to an
independently computed reference comparison sort of the same input. -/
theorem claim_C1 (s : RunState) (h : ∀ k ∈ s.inp, k < 2 ^ 64) :
    ((run_opencl_radix s).out).Perm s.inp
      ∧ List.Sorted (· ≤ ·) (run_opencl_radix s).out
      ∧ (run_opencl_radix s).out = cpuReference s.inp := by
  have hout : (run_opencl_radix s).out = finalOutput s.inp := rfl
  rw [hout]
  exact ⟨finalOutput_perm s.inp, finalOutput_sorted s.inp h,
    finalOutput_eq_reference s.inp h⟩

/-- Witness for C1 at the spec's fixed case `[5, 3, 3, 1]`. -/
theorem claim_C1_witness :
    (∀ k ∈ [5, 3, 3, 1], k < 2 ^ 64)
      ∧ ((run_opencl_radix ⟨[5, 3, 3, 1], [], 0, 0⟩).out).Perm [5, 3, 3, 1]
      ∧ List.Sorted (· ≤ ·) (run_opencl_radix ⟨[5, 3, 3, 1], [], 0, 0⟩).out
      ∧ (run_opencl_radix ⟨[5, 3, 3, 1], [], 0, 0⟩).out = cpuReference [5, 3, 3, 1] :=
  ⟨by decide, claim_C1 ⟨[5, 3, 3, 1], [], 0, 0⟩ (by decide)⟩

/-- Claim C2: in each pass the scatter stage writes every key to destination index
`pg[digit(key)] + go[group(key), digit(key)] + rank` — the pass output holds
`src[i]` at exactly `destIndex src shift i` — and keys with equal digit
(hence in particular equal-valued keys) keep their relative input order in
every pass, so stability accumulates pass over pass. -/
theorem claim_C2 (src : List Nat) (shift : Nat) (hN : src.length < U32) :
    (∀ i, i < src.length →
        (passOutput src shift)[destIndex src shift i]? = src[i]?)
      ∧ (∀ i j, i < j → j < src.length →
          digit shift (src.getD i 0) = digit shift (src.getD j 0) →
          destIndex src shift i < destIndex src shift j) := by
  constructor
  · intro i hi
    rw [destIndex_exact src shift i hi hN]
    exact passOutput_getElem? src shift i hi
  · intro i j hij hj hd
    exact destIndex_lt_of_digit_eq src shift hij hj hN hd

/-- Witness for C2 at `[513, 2, 257, 1]`, shift 0 (digits 1, 2, 1, 1). -/
theorem claim_C2_witness :
    [513, 2, 257, 1].length < U32
      ∧ ((∀ i, i < [513, 2, 257, 1].length →
            (passOutput [513, 2, 257, 1] 0)[destIndex [513, 2, 257, 1] 0 i]?
              = [513, 2, 257, 1][i]?)
        ∧ (∀ i j, i < j → j < [513, 2, 257, 1].length →
            digit 0 ([513, 2, 257, 1].getD i 0) = digit 0 ([513, 2, 257, 1].getD j 0) →
            destIndex [513, 2, 257, 1] 0 i < destIndex [513, 2, 257, 1] 0 j)) :=
  ⟨by decide, claim_C2 [513, 2, 257, 1] 0 (by decide)⟩

/-- Claim C3: for every pass, each bucket total is the sum of the per-group
histogram counts of its digit, the bucket totals sum to N, and `pg` is the
exclusive prefix sum of the bucket totals: `pg[0] = 0` and
`pg[d] = pg[d-1] + bt[d-1]` for `d ≥ 1`. -/
theorem claim_C3 (src : List Nat) (shift : Nat) (hN : src.length < U32) :
    (∀ d, bt src shift d
        = ((List.range (NUM_GROUPS src.length)).map (fun g => gh src shift g d)).sum)
      ∧ ((List.range RADIX).map (fun d => bt src shift d)).sum = src.length
      ∧ pg src shift 0 = 0
      ∧ (∀ d, 1 ≤ d → pg src shift d = pg src shift (d - 1) + bt src shift (d - 1)) := by
  refine ⟨?_, ?_, rfl, ?_⟩
  · intro d
    rw [bt_exact src shift d hN, sum_gh_eq_digitCount]
  · have hbt : ∀ d ∈ List.range RADIX, bt src shift d
        = src.countP (fun a => digit shift a == d) :=
      fun d _ => bt_exact src shift d hN
    rw [List.map_congr_left hbt]
    have h := sum_countP_range src (digit shift) (fun _ => true) RADIX
    simp only [Bool.and_true] at h
    rw [h]
    have hall : ∀ a ∈ src, (decide (digit shift a < RADIX) = true) ↔ ((true : Bool) = true) := by
      intro a _
      simp [digit_lt_radix]
    rw [List.countP_congr hall, List.countP_true]
  · intro d hd
    obtain ⟨e, rfl⟩ : ∃ e, d = e + 1 := ⟨d - 1, by omega⟩
    rw [pg]
    simp only [Nat.add_sub_cancel]
    rw [pg_exact src shift hN e, bt_exact src shift e hN, ← cntLt_succ]
    exact Nat.mod_eq_of_lt (lt_of_le_of_lt (List.countP_le_length _) hN)

/-- Witness for C3 at `[513, 2, 257, 1]`, shift 0. -/
theorem claim_C3_witness :
    [513, 2, 257, 1].length < U32
      ∧ ((∀ d, bt [513, 2, 257, 1] 0 d
            = ((List.range (NUM_GROUPS [513, 2, 257, 1].length)).map
                (fun g => gh [513, 2, 257, 1] 0 g d)).sum)
        ∧ ((List.range RADIX).map (fun d => bt [513, 2, 257, 1] 0 d)).sum
            = [513, 2, 257, 1].length
        ∧ pg [513, 2, 257, 1] 0 0 = 0
        ∧ (∀ d, 1 ≤ d → pg [513, 2, 257, 1] 0 d
            = pg [513, 2, 257, 1] 0 (d - 1) + bt [513, 2, 257, 1] 0 (d - 1))) :=
  ⟨by decide, claim_C3 [513, 2, 257, 1] 0 (by decide)⟩

/-- Claim C4: for every pass and digit, the per-group local offsets walk groups in
increasing index order with a running offset starting at 0, so `go[g, d]` is
the sum of the digit-`d` histogram counts of all groups before `g`. -/
theorem claim_C4 (src : List Nat) (shift g d : Nat) (hN : src.length < U32) :
    go src shift g d = ((List.range g).map (fun g2 => gh src shift g2 d)).sum := by
  rw [go]
  have hlt : ((List.range g).map (fun g2 => gh src shift g2 d)).sum < U32 := by
    rw [sum_gh_lt_eq]
    refine lt_of_le_of_lt (le_trans (List.countP_le_length _) ?_) hN
    rw [List.length_range]
  exact Nat.mod_eq_of_lt hlt

/-- Witness for C4 at `[513, 2, 257, 1]`, shift 0, group 1, digit 1. -/
theorem claim_C4_witness :
    [513, 2, 257, 1].length < U32
      ∧ go [513, 2, 257, 1] 0 1 1
          = ((List.range 1).map (fun g2 => gh [513, 2, 257, 1] 0 g2 1)).sum :=
  ⟨by decide, claim_C4 [513, 2, 257, 1] 0 1 1 (by decide)⟩

/-- Counterexample to C5 as stated: at N = 1 the host-to-device counter at
the end of the run is 24576, but the sum of the sizes of all host-to-device
movements actually performed is 24584, because the initial 8-byte input
upload done by `clCreateBuffer` with `CL_MEM_COPY_HOST_PTR` is not
accumulated by the counting wrappers. -/
theorem claim_C5_counterexample :
    (finalCounters 1).h2d = 24576 ∧ h2dSum (allMovements 1) = 24584
      ∧ ¬((finalCounters 1).h2d = h2dSum (allMovements 1)) := by
  decide

/-- Claim C5 amended: the two counters at the end of a run equal the exact sums of
the sizes of the transfers performed through the counting wrappers
(histogram resets, histogram readbacks, pg/go uploads, final readback) — the
initial input upload at buffer creation is not counted — and each counting
step leaves the opposite-direction counter unchanged and, absent 64-bit
wraparound, never decreases either counter. -/
theorem claim_C5_amended (N : Nat) (hN : N < U32) :
    ((finalCounters N).h2d = h2dSum (runXfers N)
        ∧ (finalCounters N).d2h = d2hSum (runXfers N))
      ∧ (∀ (c : Counters) (t : Xfer),
          c.h2d + t.bytes < U64 → c.d2h + t.bytes < U64 →
            (c.h2d ≤ (applyXfer c t).h2d ∧ c.d2h ≤ (applyXfer c t).d2h)
              ∧ (t.dir = Dir.d2h → (applyXfer c t).h2d = c.h2d)
              ∧ (t.dir = Dir.h2d → (applyXfer c t).d2h = c.d2h)) := by
  constructor
  · rw [finalCounters_exact N hN]
    exact ⟨rfl, rfl⟩
  · intro c t h1 h2
    cases t with
    | mk dir bytes =>
      cases dir with
      | h2d =>
        refine ⟨⟨?_, le_refl _⟩, ?_, fun _ => rfl⟩
        · show c.h2d ≤ (c.h2d + bytes) % U64
          rw [Nat.mod_eq_of_lt (show c.h2d + bytes < U64 from h1)]
          omega
        · intro hcon
          exact Dir.noConfusion hcon
      | d2h =>
        refine ⟨⟨le_refl _, ?_⟩, fun _ => rfl, ?_⟩
        · show c.d2h ≤ (c.d2h + bytes) % U64
          rw [Nat.mod_eq_of_lt (show c.d2h + bytes < U64 from h2)]
          omega
        · intro hcon
          exact Dir.noConfusion hcon

/-- Witness for the amended C5 at N = 1. -/
theorem claim_C5_amended_witness :
    (1 : Nat) < U32
      ∧ (((finalCounters 1).h2d = h2dSum (runXfers 1)
          ∧ (finalCounters 1).d2h = d2hSum (runXfers 1))
        ∧ (∀ (c : Counters) (t : Xfer),
            c.h2d + t.bytes < U64 → c.d2h + t.bytes < U64 →
              (c.h2d ≤ (applyXfer c t).h2d ∧ c.d2h ≤ (applyXfer c t).d2h)
                ∧ (t.dir = Dir.d2h → (applyXfer c t).h2d = c.h2d)
                ∧ (t.dir = Dir.h2d → (applyXfer c t).d2h = c.d2h))) :=
  ⟨by decide, claim_C5_amended 1 (by decide)⟩

/-- Counterexample to C6 as stated: at N = 0 the transfer counters are not
both 0 at the end of the run — the host-to-device counter is 8192. -/
theorem claim_C6_counterexample :
    ¬((finalCounters 0).h2d = 0 ∧ (finalCounters 0).d2h = 0) := by
  decide

/-- Claim C6 amended: when N = 0 the output is empty, verification passes and
reports the two totals, and the device-to-host counter is 0; but the
host-to-device counter ends at `PASSES * RADIX * 4 = 8192` bytes, because
the 1024-byte `pg` array is uploaded unconditionally in each of the 8 passes
even though every other transfer is empty. -/
theorem claim_C6_amended :
    (run_opencl_radix ⟨[], [], 0, 0⟩).out = []
      ∧ finalOutput [] = []
      ∧ verifyReport (finalOutput []) (cpuReference []) (finalCounters 0)
          = RunReport.passReport (finalCounters 0).h2d (finalCounters 0).d2h
      ∧ (finalCounters 0).d2h = 0
      ∧ (finalCounters 0).h2d = PASSES * pgBytes := by
  refine ⟨finalOutput_nil, finalOutput_nil, ?_, by decide, by decide⟩
  rw [finalOutput_nil]
  rfl

/-- Claim C7: a final buffer differing from the reference yields the mismatch
diagnostic with `exit(1)`; the pass report with the two transfer totals is
produced exactly when the final buffer equals the reference; and the two
reports are distinct, so a mismatch is never a silent pass. -/
theorem claim_C7 (out cpu : List Nat) (c : Counters) :
    (out ≠ cpu → verifyReport out cpu c = RunReport.mismatchExit1)
      ∧ (verifyReport out cpu c = RunReport.passReport c.h2d c.d2h ↔ out = cpu)
      ∧ RunReport.mismatchExit1 ≠ RunReport.passReport c.h2d c.d2h := by
  refine ⟨?_, ⟨?_, ?_⟩, ?_⟩
  · intro h
    rw [verifyReport, if_pos h]
  · intro h
    by_cases he : out = cpu
    · exact he
    · rw [verifyReport, if_pos he] at h
      exact absurd h (fun hh => RunReport.noConfusion hh)
  · intro h
    rw [verifyReport, if_neg (not_not_intro h)]
  · intro h
    exact RunReport.noConfusion h

/-- Witness for C7: a mismatching pair reports the mismatch, an equal pair
reports the pass signal with the totals. -/
theorem claim_C7_witness :
    verifyReport [0] [1] ⟨3, 4⟩ = RunReport.mismatchExit1
      ∧ verifyReport [2] [2] ⟨3, 4⟩ = RunReport.passReport 3 4 :=
  ⟨(claim_C7 [0] [1] ⟨3, 4⟩).1 (by decide),
    ((claim_C7 [2] [2] ⟨3, 4⟩).2.1).mpr rfl⟩

/-- Claim C8: during every pass the source and destination buffer identities are
distinct, the roles swap after each pass, and after the `PASSES`-pass loop
the current source buffer holds the final sorted result that is read out. -/
theorem claim_C8 (src : List Nat) :
    (∀ p, srcId p ≠ dstId p ∧ srcId (p + 1) = dstId p ∧ dstId (p + 1) = srcId p)
      ∧ bufContents src PASSES (srcId PASSES) = finalOutput src := by
  constructor
  · intro p
    refine ⟨?_, rfl, ?_⟩
    · simp only [dstId]
      cases srcId p <;> simp
    · show (!srcId (p + 1)) = srcId p
      rw [srcId]
      cases srcId p <;> rfl
  · rw [finalOutput, bufContents_srcId]

/-- Claim C9: `run_opencl_radix` leaves the input unchanged; of the caller-visible
state only `out` (resized to N and overwritten with the final buffer) and
the two transfer counters are modified. -/
theorem claim_C9 (s : RunState) :
    (run_opencl_radix s).inp = s.inp
      ∧ (run_opencl_radix s).out = finalOutput s.inp
      ∧ (run_opencl_radix s).out.length = s.inp.length
      ∧ (run_opencl_radix s).h2d
          = ((runXfers s.inp.length).foldl applyXfer ⟨s.h2d, s.d2h⟩).h2d
      ∧ (run_opencl_radix s).d2h
          = ((runXfers s.inp.length).foldl applyXfer ⟨s.h2d, s.d2h⟩).d2h :=
  ⟨rfl, rfl, (finalOutput_perm s.inp).length_eq, rfl, rfl⟩

/-- Claim C10: the kernels receive the element count as a 32-bit value, i.e.
`N mod 2^32`; the host quantities `bt`, `pg`, `go` are 32-bit values
(strictly below 2^32); and under the precondition `N < 2^32` the placement
index of the scatter formula is exact, with no truncation. -/
theorem claim_C10 (N : Nat) (src : List Nat) (shift g d i : Nat) :
    kernelArgN N = N % U32
      ∧ bt src shift d < U32 ∧ pg src shift d < U32 ∧ go src shift g d < U32
      ∧ (src.length < U32 → i < src.length →
          destIndex src shift i
            = cntLt src shift (digit shift (src.getD i 0)) + rankGlobal src shift i) := by
  have hU : (0 : Nat) < U32 := by norm_num [U32]
  refine ⟨rfl, ?_, ?_, ?_, ?_⟩
  · rw [bt]
    exact Nat.mod_lt _ hU
  · cases d with
    | zero => rw [pg]; exact hU
    | succ e => rw [pg]; exact Nat.mod_lt _ hU
  · rw [go]
    exact Nat.mod_lt _ hU
  · intro hN hi
    exact destIndex_exact src shift i hi hN

/-- Witness for C10 at `[513, 2, 257, 1]`, shift 0, index 2. -/
theorem claim_C10_witness :
    [513, 2, 257, 1].length < U32
      ∧ (2 : Nat) < [513, 2, 257, 1].length
      ∧ destIndex [513, 2, 257, 1] 0 2
          = cntLt [513, 2, 257, 1] 0 (digit 0 ([513, 2, 257, 1].getD 2 0))
            + rankGlobal [513, 2, 257, 1] 0 2 :=
  ⟨by decide, by decide,
    (claim_C10 5 [513, 2, 257, 1] 0 0 1 2).2.2.2.2 (by decide) (by decide)⟩

end CloudSort
